import Mathlib

/-!
Verification development for the orienteering route-choice generator
(`modal-processor-complete.py`).  The definitions below are a shallow
embedding of the route divergence and selection engine of `process_map`:
the simplified weighted graph and the per-pair path search (`find_alts`,
`eval_pair`), the skeleton-graph contraction (`simplify_graph`), the
point snapping (`snap_point`), the pixel-path smoothing (`smooth_path`),
the pixel overlap measure (`get_pixel_overlap`) and the multi-pass
diversity selection filter.  Graph nodes are `(row, col)` coordinates,
modelled as `ℤ × ℤ`; edge weights are modelled as rationals (the
functions under study are generic in the weights).  The shortest-path
routine `nx.astar_path` is an external library call and is modelled as
an explicit function parameter `sp`; a concrete executable shortest-path
function `spShortest` is provided for evaluating the development on
concrete graphs.
-/

namespace RouteGen

/-- A grid coordinate `(row, col)` as used for graph nodes. -/
abbrev Node : Type := ℤ × ℤ

/-- An undirected weighted graph as stored by `networkx.Graph`: a list of
weighted edges.  An unordered query pair matches an entry in either
orientation. -/
structure WGraph where
  edges : List (Node × Node × ℚ)
deriving DecidableEq

/-- Whether the unordered pairs `{u, v}` and `{a, b}` coincide. -/
def samePair (u v a b : Node) : Bool :=
  (u = a && v = b) || (u = b && v = a)

/-- Whether the stored edge `e` joins the unordered pair `{u, v}`. -/
def matchesE (u v : Node) (e : Node × Node × ℚ) : Bool :=
  samePair u v e.1 e.2.1

/-- `G[u][v]["weight"]`: the weight of the edge between `u` and `v`, or
`none` when the edge is absent (`networkx` raises). -/
def weight? (g : WGraph) (u v : Node) : Option ℚ :=
  (g.edges.find? (matchesE u v)).map (fun e => e.2.2)

/-- `G.has_edge(u, v)`. -/
def hasEdge (g : WGraph) (u v : Node) : Bool :=
  (weight? g u v).isSome

/-- `G.remove_edge(u, v)`: drop every stored entry joining `{u, v}`. -/
def removeEdge (g : WGraph) (u v : Node) : WGraph :=
  ⟨g.edges.filter (fun e => ¬ matchesE u v e)⟩

/-- `G.add_edge(u, v, weight := w)` on a graph not containing the edge:
prepend the entry. -/
def addEdge (g : WGraph) (u v : Node) (w : ℚ) : WGraph :=
  ⟨(u, v, w) :: g.edges⟩

/-- `nx.path_weight(G, path, weight="weight")`: the sum of the weights of
the consecutive edges of `path`; `none` when some consecutive pair is not
an edge (`networkx` raises). -/
def path_weight (g : WGraph) : List Node → Option ℚ
  | [] => some 0
  | [_] => some 0
  | u :: v :: rest =>
    match weight? g u v, path_weight g (v :: rest) with
    | some w, some rw => some (w + rw)
    | _, _ => none

/-- Extensional equality of graphs: the same weight is observed for every
unordered node pair. -/
def EqW (g g' : WGraph) : Prop :=
  ∀ a b : Node, weight? g a b = weight? g' a b

/-- `route_sim(r1, r2)`: node-set Jaccard similarity
`|s1 ∩ s2| / |s1 ∪ s2|`, and `0` when the union is empty. -/
def route_sim (r1 r2 : List Node) : ℚ :=
  let s1 := r1.dedup
  let s2 := r2.dedup
  let uni := (s1 ++ s2).dedup
  if uni.length = 0 then 0
  else ((s1.filter (fun x => x ∈ s2)).length : ℚ) / (uni.length : ℚ)

/-! ### Basic graph lemmas -/

theorem samePair_iff {u v a b : Node} :
    samePair u v a b = true ↔ (u = a ∧ v = b) ∨ (u = b ∧ v = a) := by
  simp [samePair]

theorem matchesE_swap (a b : Node) (e : Node × Node × ℚ) :
    matchesE a b e = matchesE b a e := by
  simp [matchesE, samePair, Bool.or_comm, Bool.and_comm]

theorem matchesE_congr {u v a b : Node} (h : samePair u v a b = true)
    (e : Node × Node × ℚ) : matchesE a b e = matchesE u v e := by
  rcases samePair_iff.mp h with ⟨h1, h2⟩ | ⟨h1, h2⟩
  · subst h1; subst h2; rfl
  · subst h1; subst h2; exact matchesE_swap _ _ e

theorem find?_congr_pred {α : Type} {p q : α → Bool} (h : ∀ x, p x = q x) :
    ∀ l : List α, l.find? p = l.find? q := by
  intro l
  induction l with
  | nil => rfl
  | cons x xs ih =>
    simp only [List.find?]
    rw [h x]
    cases q x <;> simp [ih]

/-- A lookup for the pair `{a, b}` returns the same result as a lookup for
the pair `{u, v}` when the two unordered pairs coincide. -/
theorem weight?_congr_pair {u v a b : Node} (h : samePair u v a b = true)
    (g : WGraph) : weight? g a b = weight? g u v := by
  simp only [weight?]
  rw [find?_congr_pred (matchesE_congr h) g.edges]

theorem matchesE_of_both {u v a b : Node} {e : Node × Node × ℚ}
    (hab : matchesE a b e = true) (huv : matchesE u v e = true) :
    samePair u v a b = true := by
  rcases samePair_iff.mp hab with ⟨h1, h2⟩ | ⟨h1, h2⟩ <;>
    rcases samePair_iff.mp huv with ⟨h3, h4⟩ | ⟨h3, h4⟩ <;>
    apply samePair_iff.mpr <;> subst_vars <;> simp

theorem samePair_comm (u v a b : Node) :
    samePair a b u v = samePair u v a b := by
  by_cases h : samePair u v a b = true
  · rw [h]
    apply samePair_iff.mpr
    rcases samePair_iff.mp h with ⟨h1, h2⟩ | ⟨h1, h2⟩ <;> subst_vars <;> simp
  · have h' : ¬ samePair a b u v = true := by
      intro hc
      apply h
      apply samePair_iff.mpr
      rcases samePair_iff.mp hc with ⟨h1, h2⟩ | ⟨h1, h2⟩ <;> subst_vars <;> simp
    simp only [Bool.not_eq_true] at h h'
    rw [h, h']

theorem find?_matches_filter (u v a b : Node) (l : List (Node × Node × ℚ)) :
    (l.filter (fun e => ¬ matchesE u v e)).find? (matchesE a b) =
      if samePair u v a b then none else l.find? (matchesE a b) := by
  induction l with
  | nil => cases h : samePair u v a b <;> simp [h]
  | cons e es ih =>
    by_cases he : matchesE u v e = true
    · rw [List.filter_cons_of_neg (by simpa using he)]
      by_cases hsp : samePair u v a b = true
      · rw [ih, if_pos hsp, if_pos hsp]
      · have hab : matchesE a b e = false := by
          by_contra hc
          simp only [Bool.not_eq_false] at hc
          exact hsp (matchesE_of_both hc he)
        rw [ih, if_neg (by simpa using hsp), if_neg (by simpa using hsp),
          List.find?_cons_of_neg _ (by simpa using hab)]
    · rw [List.filter_cons_of_pos (by simpa using he)]
      by_cases hab : matchesE a b e = true
      · have hsp : samePair u v a b = false := by
          by_contra hc
          simp only [Bool.not_eq_false] at hc
          rw [matchesE_congr hc e] at hab
          exact he hab
        rw [if_neg (by simp [hsp]), List.find?_cons_of_pos _ hab,
          List.find?_cons_of_pos _ hab]
      · rw [List.find?_cons_of_neg _ (by simpa using hab), ih]
        by_cases hsp : samePair u v a b = true
        · rw [if_pos hsp, if_pos hsp]
        · rw [if_neg (by simpa using hsp), if_neg (by simpa using hsp),
            List.find?_cons_of_neg _ (by simpa using hab)]

/-- Removing the edge `{u, v}` erases exactly the lookups for that pair and
leaves every other lookup unchanged. -/
theorem weight?_removeEdge (g : WGraph) (u v a b : Node) :
    weight? (removeEdge g u v) a b =
      if samePair u v a b then none else weight? g a b := by
  simp only [weight?, removeEdge]
  rw [find?_matches_filter]
  by_cases hsp : samePair u v a b = true
  · rw [if_pos hsp, if_pos hsp]; rfl
  · rw [if_neg (by simpa using hsp), if_neg (by simpa using hsp)]

/-- Adding back an edge with its original weight restores the graph up to
extensional equality of lookups. -/
theorem EqW_restore {g : WGraph} {u v : Node} {w : ℚ}
    (hw : weight? g u v = some w) :
    EqW (addEdge (removeEdge g u v) u v w) g := by
  intro a b
  by_cases h : matchesE a b (u, v, w) = true
  · have hsp : samePair u v a b = true := by
      have h' : samePair a b u v = true := by
        simpa [matchesE] using h
      rw [samePair_comm] at h'
      exact h'
    have h1 : weight? (addEdge (removeEdge g u v) u v w) a b = some w := by
      simp only [addEdge, weight?]
      rw [List.find?_cons_of_pos _ h]
      rfl
    have h2 : weight? g a b = some w := by
      rw [weight?_congr_pair hsp g, hw]
    rw [h1, h2]
  · have hsp : samePair u v a b = false := by
      by_contra hc
      simp only [Bool.not_eq_false] at hc
      apply h
      have : matchesE u v (u, v, w) = true := by
        simp [matchesE, samePair]
      rw [matchesE_congr hc (u, v, w)]
      exact this
    have h1 : weight? (addEdge (removeEdge g u v) u v w) a b =
        weight? (removeEdge g u v) a b := by
      simp only [addEdge, weight?]
      rw [List.find?_cons_of_neg _ (by simpa using h)]
    rw [h1, weight?_removeEdge, hsp]
    simp

theorem EqW_refl (g : WGraph) : EqW g g := fun _ _ => rfl

theorem EqW_trans {g1 g2 g3 : WGraph} (h1 : EqW g1 g2) (h2 : EqW g2 g3) :
    EqW g1 g3 := fun a b => (h1 a b).trans (h2 a b)

/-- `path_weight` only looks at edge weights, so it respects extensional
graph equality. -/
theorem path_weight_congr {g g' : WGraph} (h : EqW g g') :
    ∀ p : List Node, path_weight g p = path_weight g' p := by
  intro p
  induction p with
  | nil => rfl
  | cons u rest ih =>
    cases rest with
    | nil => rfl
    | cons v rest' =>
      simp only [path_weight]
      rw [h u v, ih]

/-- A path whose weight is defined on `removeEdge g u v` has the same
weight on `g` (removal only deletes lookups). -/
theorem path_weight_removeEdge_some {g : WGraph} {u v : Node}
    {p : List Node} {w : ℚ}
    (h : path_weight (removeEdge g u v) p = some w) :
    path_weight g p = some w := by
  induction p generalizing w with
  | nil => simpa [path_weight] using h
  | cons a rest ih =>
    cases rest with
    | nil => simpa [path_weight] using h
    | cons b rest' =>
      simp only [path_weight] at h ⊢
      rcases hw : weight? (removeEdge g u v) a b with _ | wa
      · rw [hw] at h; simp at h
      · rw [hw] at h
        rcases hr : path_weight (removeEdge g u v) (b :: rest') with _ | wr
        · rw [hr] at h; simp at h
        · rw [hr] at h
          have hwg : weight? g a b = some wa := by
            have := weight?_removeEdge g u v a b
            rw [hw] at this
            by_cases hsp : samePair u v a b = true
            · rw [hsp] at this; simp at this
            · simp only [Bool.not_eq_true] at hsp
              rw [hsp] at this; simp at this; exact this.symm
          rw [hwg, ih hr]
          exact h

/-! ### The per-pair divergence search (`find_alts`, `eval_pair`)

`nx.astar_path(Gs, st, en, ...)` is modelled by a function parameter
`sp : WGraph → Node → Node → Option (List Node)` (`none` models the
`NetworkXNoPath` / `NodeNotFound` exceptions, which the source catches).
The Python source mutates the shared graph `Gs` while searching
(`Gs.remove_edge` / `Gs.add_edge`); the embedding threads that state
explicitly and additionally records every graph that is passed to the
shortest-path routine, so that the mutation behaviour itself can be
stated and proved. -/

/-- `ALT_MAX_ALTERNATIVES` from the source. -/
def ALT_MAX_ALTERNATIVES : ℕ := 3

/-- The index sequence `range(1, len(mainp), 5)` of the `find_alts` loop. -/
def altIdxList (len : ℕ) : List ℕ :=
  List.range' 1 ((len + 3) / 5) 5

/-- The body of `find_alts` (lines 461-482 of the source), threading the
mutated graph.  One loop iteration: look up the main-path edge
`(mainp[i-1], mainp[i])`; skip if absent; otherwise remove it, run the
shortest-path search on the mutated graph, and accept the found path when
its length on the mutated graph is `≤ 1.3 × Lm` and its node-set Jaccard
similarity to the main path is `< 0.90`; the edge is added back before the
next iteration (also on the early exit at `ALT_MAX_ALTERNATIVES` accepted
alternates, and when the search or the length lookup raises).  Returns the
final graph, the accepted alternates, and the list of graphs that were
passed to the shortest-path routine. -/
def find_altsGo (sp : WGraph → Node → Node → Option (List Node))
    (st en : Node) (mainp : List Node) (Lm : ℚ) :
    List ℕ → WGraph → List (List Node) → List WGraph →
    WGraph × List (List Node) × List WGraph
  | [], g, alts, qs => (g, alts, qs)
  | i :: rest, g, alts, qs =>
    match mainp.get? (i - 1), mainp.get? i with
    | some u, some v =>
      match weight? g u v with
      | none => find_altsGo sp st en mainp Lm rest g alts qs
      | some w =>
        let g1 := removeEdge g u v
        let qs' := qs ++ [g1]
        match sp g1 st en with
        | none => find_altsGo sp st en mainp Lm rest (addEdge g1 u v w) alts qs'
        | some a =>
          match path_weight g1 a with
          | none => find_altsGo sp st en mainp Lm rest (addEdge g1 u v w) alts qs'
          | some La =>
            if La ≤ 13/10 * Lm then
              if route_sim a mainp < 9/10 then
                let alts' := alts ++ [a]
                if ALT_MAX_ALTERNATIVES ≤ alts'.length then
                  (addEdge g1 u v w, alts', qs')
                else find_altsGo sp st en mainp Lm rest (addEdge g1 u v w) alts' qs'
              else find_altsGo sp st en mainp Lm rest (addEdge g1 u v w) alts qs'
            else find_altsGo sp st en mainp Lm rest (addEdge g1 u v w) alts qs'
    | _, _ => find_altsGo sp st en mainp Lm rest g alts qs

/-- `find_alts(Gs, st, en, mainp)`: the accepted alternates.  (`Lm`, the
main-path length on the unmodified graph, is computed by the caller; the
source computes the identical value at the top of `find_alts`.) -/
def find_alts (sp : WGraph → Node → Node → Option (List Node))
    (g : WGraph) (st en : Node) (mainp : List Node) (Lm : ℚ) :
    List (List Node) :=
  (find_altsGo sp st en mainp Lm (altIdxList mainp.length) g [] []).2.1

/-- The candidate record built by `eval_pair`.  The real-valued hardness
score (`ineff + alt_sum`, computed with `math.hypot`) is used only as a
sort key downstream and is not modelled; no claim refers to its value. -/
structure Cand where
  snapped_pair : Node × Node
  main_route_graph : List Node
  alt_routes_graph : List (List Node)
  route_distance : ℚ
deriving DecidableEq

/-- `eval_pair(pair)` (lines 484-519): compute the main path (`none` on
`NetworkXNoPath`, caught by the source's `try`), its length `Lm`, the
alternates, reject the pair when the straight-line distance is zero
(`st = en`), filter the alternates by node-set similarity to the main path
(`sim > MAX_OVERLAP_PERCENT` is discarded), and keep the candidate only
when at least one alternate remains. -/
def eval_pair (sp : WGraph → Node → Node → Option (List Node))
    (g : WGraph) (maxOv : ℚ) (p : Node × Node) : Option Cand :=
  match sp g p.1 p.2 with
  | none => none
  | some mainp =>
    match path_weight g mainp with
    | none => none
    | some Lm =>
      if p.1 = p.2 then none
      else if ((find_alts sp g p.1 p.2 mainp Lm).filter
          (fun a => ¬ route_sim a mainp > maxOv)).isEmpty then none
      else some ⟨p, mainp,
        (find_alts sp g p.1 p.2 mainp Lm).filter
          (fun a => ¬ route_sim a mainp > maxOv), Lm⟩

/-- The alternate-count gate of the batched refinement loop (line 586 of
the source): a graph-level candidate enters pixel refinement only when
`len(cand["alt_routes_graph"]) < 1` is false. -/
def refinement_alt_gate (c : Cand) : Bool :=
  ¬ c.alt_routes_graph.length < 1

/-! ### Structural lemmas about `find_altsGo` -/

/-- After `find_alts` returns, the threaded graph is extensionally equal to
the input graph: every temporarily removed edge has been restored with its
original weight. -/
theorem find_altsGo_restores (sp : WGraph → Node → Node → Option (List Node))
    (st en : Node) (mainp : List Node) (Lm : ℚ) :
    ∀ (idxs : List ℕ) (g : WGraph) (alts : List (List Node))
      (qs : List WGraph),
      EqW (find_altsGo sp st en mainp Lm idxs g alts qs).1 g := by
  intro idxs
  induction idxs with
  | nil => intro g alts qs; exact EqW_refl g
  | cons i rest ih =>
    intro g alts qs
    cases hu : mainp.get? (i - 1) with
    | none => simp only [find_altsGo, hu]; exact ih g alts qs
    | some u =>
      cases hv : mainp.get? i with
      | none => simp only [find_altsGo, hu, hv]; exact ih g alts qs
      | some v =>
        cases hw : weight? g u v with
        | none => simp only [find_altsGo, hu, hv, hw]; exact ih g alts qs
        | some w =>
          have hres : EqW (addEdge (removeEdge g u v) u v w) g := EqW_restore hw
          cases hsp : sp (removeEdge g u v) st en with
          | none =>
            simp only [find_altsGo, hu, hv, hw, hsp]
            exact EqW_trans (ih _ _ _) hres
          | some a =>
            cases hpa : path_weight (removeEdge g u v) a with
            | none =>
              simp only [find_altsGo, hu, hv, hw, hsp, hpa]
              exact EqW_trans (ih _ _ _) hres
            | some La =>
              simp only [find_altsGo, hu, hv, hw, hsp, hpa]
              by_cases hLa : La ≤ 13/10 * Lm
              · rw [if_pos hLa]
                by_cases hsim : route_sim a mainp < 9/10
                · rw [if_pos hsim]
                  by_cases hlen : ALT_MAX_ALTERNATIVES ≤ (alts ++ [a]).length
                  · rw [if_pos hlen]
                    exact hres
                  · rw [if_neg hlen]
                    exact EqW_trans (ih _ _ _) hres
                · rw [if_neg hsim]
                  exact EqW_trans (ih _ _ _) hres
              · rw [if_neg hLa]
                exact EqW_trans (ih _ _ _) hres

/-- `find_alts` accepts at most `ALT_MAX_ALTERNATIVES` alternates. -/
theorem find_altsGo_length_le (sp : WGraph → Node → Node → Option (List Node))
    (st en : Node) (mainp : List Node) (Lm : ℚ) :
    ∀ (idxs : List ℕ) (g : WGraph) (alts : List (List Node))
      (qs : List WGraph),
      alts.length < ALT_MAX_ALTERNATIVES →
      (find_altsGo sp st en mainp Lm idxs g alts qs).2.1.length ≤
        ALT_MAX_ALTERNATIVES := by
  intro idxs
  induction idxs with
  | nil => intro g alts qs hlt; exact Nat.le_of_lt hlt
  | cons i rest ih =>
    intro g alts qs hlt
    cases hu : mainp.get? (i - 1) with
    | none => simp only [find_altsGo, hu]; exact ih g alts qs hlt
    | some u =>
      cases hv : mainp.get? i with
      | none => simp only [find_altsGo, hu, hv]; exact ih g alts qs hlt
      | some v =>
        cases hw : weight? g u v with
        | none => simp only [find_altsGo, hu, hv, hw]; exact ih g alts qs hlt
        | some w =>
          cases hsp : sp (removeEdge g u v) st en with
          | none =>
            simp only [find_altsGo, hu, hv, hw, hsp]
            exact ih _ alts _ hlt
          | some a =>
            cases hpa : path_weight (removeEdge g u v) a with
            | none =>
              simp only [find_altsGo, hu, hv, hw, hsp, hpa]
              exact ih _ alts _ hlt
            | some La =>
              simp only [find_altsGo, hu, hv, hw, hsp, hpa]
              by_cases hLa : La ≤ 13/10 * Lm
              · rw [if_pos hLa]
                by_cases hsim : route_sim a mainp < 9/10
                · rw [if_pos hsim]
                  by_cases hlen : ALT_MAX_ALTERNATIVES ≤ (alts ++ [a]).length
                  · rw [if_pos hlen]
                    simpa using hlt
                  · rw [if_neg hlen]
                    exact ih _ _ _ (Nat.lt_of_not_le hlen)
                · rw [if_neg hsim]
                  exact ih _ alts _ hlt
              · rw [if_neg hLa]
                exact ih _ alts _ hlt

/-- Every alternate accepted by `find_alts` has a defined length on the
original graph, bounded by `1.3 ×` the main-path length: the length check
is performed on the graph with one edge removed, whose remaining weights
coincide with the original ones. -/
theorem find_altsGo_alts_bounded
    (sp : WGraph → Node → Node → Option (List Node))
    (st en : Node) (mainp : List Node) (Lm : ℚ) (g0 : WGraph) :
    ∀ (idxs : List ℕ) (g : WGraph) (alts : List (List Node))
      (qs : List WGraph),
      EqW g g0 →
      (∀ a ∈ alts, ∃ La, path_weight g0 a = some La ∧ La ≤ 13/10 * Lm) →
      ∀ a ∈ (find_altsGo sp st en mainp Lm idxs g alts qs).2.1,
        ∃ La, path_weight g0 a = some La ∧ La ≤ 13/10 * Lm := by
  intro idxs
  induction idxs with
  | nil => intro g alts qs _ hacc; exact hacc
  | cons i rest ih =>
    intro g alts qs heq hacc
    cases hu : mainp.get? (i - 1) with
    | none => simp only [find_altsGo, hu]; exact ih g alts qs heq hacc
    | some u =>
      cases hv : mainp.get? i with
      | none => simp only [find_altsGo, hu, hv]; exact ih g alts qs heq hacc
      | some v =>
        cases hw : weight? g u v with
        | none => simp only [find_altsGo, hu, hv, hw]; exact ih g alts qs heq hacc
        | some w =>
          have hres : EqW (addEdge (removeEdge g u v) u v w) g0 :=
            EqW_trans (EqW_restore hw) heq
          cases hsp : sp (removeEdge g u v) st en with
          | none =>
            simp only [find_altsGo, hu, hv, hw, hsp]
            exact ih _ alts _ hres hacc
          | some a =>
            cases hpa : path_weight (removeEdge g u v) a with
            | none =>
              simp only [find_altsGo, hu, hv, hw, hsp, hpa]
              exact ih _ alts _ hres hacc
            | some La =>
              simp only [find_altsGo, hu, hv, hw, hsp, hpa]
              by_cases hLa : La ≤ 13/10 * Lm
              · have hnew : ∃ L, path_weight g0 a = some L ∧ L ≤ 13/10 * Lm := by
                  refine ⟨La, ?_, hLa⟩
                  have h1 : path_weight g a = some La :=
                    path_weight_removeEdge_some hpa
                  rw [← path_weight_congr heq a]
                  exact h1
                have hacc' : ∀ b ∈ alts ++ [a],
                    ∃ L, path_weight g0 b = some L ∧ L ≤ 13/10 * Lm := by
                  intro b hb
                  rcases List.mem_append.mp hb with hb | hb
                  · exact hacc b hb
                  · rcases List.mem_singleton.mp hb with rfl
                    exact hnew
                rw [if_pos hLa]
                by_cases hsim : route_sim a mainp < 9/10
                · rw [if_pos hsim]
                  by_cases hlen : ALT_MAX_ALTERNATIVES ≤ (alts ++ [a]).length
                  · rw [if_pos hlen]
                    exact hacc'
                  · rw [if_neg hlen]
                    exact ih _ _ _ hres hacc'
                · rw [if_neg hsim]
                  exact ih _ alts _ hres hacc
              · rw [if_neg hLa]
                exact ih _ alts _ hres hacc

/-! ### Dissecting a successful `eval_pair` -/

theorem eval_pair_some_elim {sp : WGraph → Node → Node → Option (List Node)}
    {g : WGraph} {maxOv : ℚ} {p : Node × Node} {c : Cand}
    (h : eval_pair sp g maxOv p = some c) :
    ∃ mainp Lm,
      sp g p.1 p.2 = some mainp ∧
      path_weight g mainp = some Lm ∧
      p.1 ≠ p.2 ∧
      c = ⟨p, mainp,
        (find_alts sp g p.1 p.2 mainp Lm).filter
          (fun a => ¬ route_sim a mainp > maxOv), Lm⟩ ∧
      ((find_alts sp g p.1 p.2 mainp Lm).filter
          (fun a => ¬ route_sim a mainp > maxOv)).isEmpty = false := by
  unfold eval_pair at h
  split at h
  · exact Option.noConfusion h
  · rename_i mainp hsp
    split at h
    · exact Option.noConfusion h
    · rename_i Lm hpw
      split at h
      · exact Option.noConfusion h
      · rename_i hpe
        split at h
        · exact Option.noConfusion h
        · rename_i hempty
          refine ⟨mainp, Lm, hsp, hpw, hpe, ?_, by simpa using hempty⟩
          exact (Option.some_injective _ h).symm

/-! ### Claim theorems about the divergence stage -/

/-- C1 (amended): a candidate is retained by the graph-level divergence
stage `eval_pair` exactly when between `1` and `ALT_MAX_ALTERNATIVES = 3`
alternates survive; a candidate with fewer than 3 accepted alternates can
be retained, and the pixel-refinement batch loop admits any retained
candidate with at least one graph alternate (`refinement_alt_gate`). -/
theorem c1_candidate_alt_count_bounds
    (sp : WGraph → Node → Node → Option (List Node)) (g : WGraph)
    (maxOv : ℚ) (p : Node × Node) (c : Cand)
    (h : eval_pair sp g maxOv p = some c) :
    1 ≤ c.alt_routes_graph.length ∧
    c.alt_routes_graph.length ≤ ALT_MAX_ALTERNATIVES ∧
    refinement_alt_gate c = true := by
  rcases eval_pair_some_elim h with ⟨mainp, Lm, hsp, hpw, hpe, hc, hne⟩
  subst hc
  have h1 : 1 ≤ ((find_alts sp g p.1 p.2 mainp Lm).filter
      (fun a => ¬ route_sim a mainp > maxOv)).length := by
    have := List.isEmpty_eq_false.mp hne
    have hlen := List.length_pos.mpr this
    omega
  have h2 : ((find_alts sp g p.1 p.2 mainp Lm).filter
      (fun a => ¬ route_sim a mainp > maxOv)).length ≤ ALT_MAX_ALTERNATIVES := by
    have hsub : ((find_alts sp g p.1 p.2 mainp Lm).filter
        (fun a => ¬ route_sim a mainp > maxOv)).length ≤
        (find_alts sp g p.1 p.2 mainp Lm).length :=
      List.length_filter_le _ _
    have hbound : (find_alts sp g p.1 p.2 mainp Lm).length ≤
        ALT_MAX_ALTERNATIVES :=
      find_altsGo_length_le sp p.1 p.2 mainp Lm _ g [] []
        (by simp [ALT_MAX_ALTERNATIVES])
    exact le_trans hsub hbound
  refine ⟨h1, h2, ?_⟩
  simp only [refinement_alt_gate, decide_eq_true_eq]
  omega

/-- C2 (amended): `find_alts` temporarily removes one main-path edge at a
time from the shared graph and restores it with its original weight before
finishing, so the graph observed *after* the search is extensionally equal
to the graph observed *before* it (every edge-weight lookup agrees) — but
the search does mutate the shared graph while it runs, and there is no
weight-override map. -/
theorem c2_find_alts_restores_graph
    (sp : WGraph → Node → Node → Option (List Node)) (g : WGraph)
    (st en : Node) (mainp : List Node) (Lm : ℚ) :
    EqW (find_altsGo sp st en mainp Lm (altIdxList mainp.length) g [] []).1
      g :=
  find_altsGo_restores sp st en mainp Lm (altIdxList mainp.length) g [] []

/-- C4 (amended): every alternate kept by `eval_pair` has node-set Jaccard
similarity at most `MAX_OVERLAP_PERCENT` to the *main* path only; the
similarity between two accepted alternates is never checked. -/
theorem c4_alt_similarity_vs_main
    (sp : WGraph → Node → Node → Option (List Node)) (g : WGraph)
    (maxOv : ℚ) (p : Node × Node) (c : Cand)
    (h : eval_pair sp g maxOv p = some c) :
    ∀ a ∈ c.alt_routes_graph, route_sim a c.main_route_graph ≤ maxOv := by
  rcases eval_pair_some_elim h with ⟨mainp, Lm, hsp, hpw, hpe, hc, hne⟩
  subst hc
  intro a ha
  have := (List.mem_filter.mp ha).2
  simp only [gt_iff_lt, decide_not, Bool.not_eq_true', decide_eq_false_iff_not,
    not_lt] at this
  simpa using this

/-- C5: every alternate of a retained candidate has a defined true length
on the unmodified graph, and that length is at most `1.3 ×` the main
path's length (the length gate of `find_alts` is checked against weights
that coincide with the unpenalized originals). -/
theorem c5_alt_length_ratio
    (sp : WGraph → Node → Node → Option (List Node)) (g : WGraph)
    (maxOv : ℚ) (p : Node × Node) (c : Cand)
    (h : eval_pair sp g maxOv p = some c) :
    path_weight g c.main_route_graph = some c.route_distance ∧
    ∀ a ∈ c.alt_routes_graph,
      ∃ La, path_weight g a = some La ∧ La ≤ 13/10 * c.route_distance := by
  rcases eval_pair_some_elim h with ⟨mainp, Lm, hsp, hpw, hpe, hc, hne⟩
  subst hc
  refine ⟨hpw, ?_⟩
  intro a ha
  have ha' : a ∈ find_alts sp g p.1 p.2 mainp Lm := (List.mem_filter.mp ha).1
  exact find_altsGo_alts_bounded sp p.1 p.2 mainp Lm g _ g [] []
    (EqW_refl g) (by intro b hb; exact absurd hb (List.not_mem_nil b)) a ha'

/-! ### A concrete executable shortest-path function

`nx.astar_path` returns a shortest path between its endpoints.  For
evaluating the development on concrete graphs, `spShortest` enumerates all
simple paths (bounded depth-first search) and keeps a minimum-weight one;
on the concrete graphs below the shortest path is unique, so any correct
shortest-path routine — in particular A* with an admissible heuristic —
returns the same path. -/

def neighborsW (g : WGraph) (u : Node) : List Node :=
  g.edges.filterMap (fun e =>
    if e.1 = u then some e.2.1
    else if e.2.1 = u then some e.1 else none)

def listPathsGo (g : WGraph) (en : Node) :
    ℕ → Node → List Node → List (List Node)
  | 0, cur, _ => if cur = en then [[cur]] else []
  | f + 1, cur, vis =>
    if cur = en then [[cur]]
    else ((neighborsW g cur).filter (fun n => ¬ vis.contains n)).flatMap
      (fun nxt => (listPathsGo g en f nxt (nxt :: vis)).map
        (fun q => cur :: q))

def spShortest (g : WGraph) (st en : Node) : Option (List Node) :=
  match (listPathsGo g en (2 * g.edges.length + 2) st [st]).filterMap
      (fun q => (path_weight g q).map (fun w => (q, w))) with
  | [] => none
  | x :: xs => some ((xs.foldl (fun b y => if y.2 < b.2 then y else b) x).1)

/-! ### Concrete instances for the divergence stage

`gC1`: a 10-node graph with exactly two simple paths between `(0,0)` and
`(0,5)` — a main path of length 5 and one detour of length 6.  With the
default configuration (`MAX_OVERLAP_PERCENT = 1/5`), `eval_pair` retains
the pair with a single accepted alternate. -/

def gC1 : WGraph := ⟨[
  ((0, 0), (0, 1), 1), ((0, 1), (0, 2), 1), ((0, 2), (0, 3), 1),
  ((0, 3), (0, 4), 1), ((0, 4), (0, 5), 1),
  ((0, 0), (1, 1), 1), ((1, 1), (1, 2), 1), ((1, 2), (1, 3), 1),
  ((1, 3), (1, 4), 1), ((1, 4), (0, 5), 2)]⟩

def mainC1 : List Node := [(0, 0), (0, 1), (0, 2), (0, 3), (0, 4), (0, 5)]

def altC1 : List Node := [(0, 0), (1, 1), (1, 2), (1, 3), (1, 4), (0, 5)]

def cC1 : Cand := ⟨((0, 0), (0, 5)), mainC1, [altC1], 5⟩

/-- `gC4`: a 13-node graph whose main path has 7 nodes, so the `find_alts`
loop probes the edges at indices 1 and 6; both probes are answered by the
*same* detour, which is accepted twice. -/
def gC4 : WGraph := ⟨[
  ((0, 0), (0, 1), 1), ((0, 1), (0, 2), 1), ((0, 2), (0, 3), 1),
  ((0, 3), (0, 4), 1), ((0, 4), (0, 5), 1), ((0, 5), (0, 6), 1),
  ((0, 0), (1, 1), 2), ((1, 1), (1, 2), 1), ((1, 2), (1, 3), 1),
  ((1, 3), (1, 4), 1), ((1, 4), (1, 5), 1), ((1, 5), (0, 6), 1)]⟩

def mainC4 : List Node :=
  [(0, 0), (0, 1), (0, 2), (0, 3), (0, 4), (0, 5), (0, 6)]

def altC4 : List Node :=
  [(0, 0), (1, 1), (1, 2), (1, 3), (1, 4), (1, 5), (0, 6)]

def cC4 : Cand := ⟨((0, 0), (0, 6)), mainC4, [altC4, altC4], 6⟩

/-- C1 (counterexample): with the configured alternate count
`ALT_MAX_ALTERNATIVES = 3`, `eval_pair` retains the pair
`((0,0), (0,5))` of `gC1` with exactly **one** accepted alternate, and the
pixel-refinement batch loop admits this candidate as well — so a candidate
with fewer than `K` accepted alternates does survive both stages, refuting
the accept-exactly-K-or-discard claim. -/
theorem c1_partial_alt_candidate_retained :
    eval_pair spShortest gC1 (1/5) ((0, 0), (0, 5)) = some cC1 ∧
    cC1.alt_routes_graph.length = 1 ∧
    1 < ALT_MAX_ALTERNATIVES ∧
    refinement_alt_gate cC1 = true := by
  refine ⟨by with_unfolding_all decide, by with_unfolding_all decide, by with_unfolding_all decide, by with_unfolding_all decide⟩

/-- C2 (counterexample): during the `find_alts` search for the pair
`((0,0), (0,5))` of `gC1`, the first graph handed to the shortest-path
routine lacks the shared graph's edge `{(0,0), (0,1)}`: the search
operates on a mutated shared graph, not on an overlay of pair-local
weight overrides. -/
theorem c2_search_removes_shared_edge :
    hasEdge ((find_altsGo spShortest (0, 0) (0, 5) mainC1 5
        (altIdxList mainC1.length) gC1 [] []).2.2.getD 0 ⟨[]⟩)
      (0, 0) (0, 1) = false ∧
    hasEdge gC1 (0, 0) (0, 1) = true := by
  refine ⟨by with_unfolding_all decide, by with_unfolding_all decide⟩

/-- C4 (counterexample): on `gC4`, `eval_pair` retains the candidate with
the alternate list `[altC4, altC4]` — the same detour accepted twice, at
attempt indices 0 and 1.  The node-set Jaccard similarity between these
two pool members is `1`, which exceeds both similarity ceilings appearing
in the code (`0.90` at search time, `MAX_OVERLAP_PERCENT = 0.20` at
filter time): similarity is only ever checked against the main path. -/
theorem c4_duplicate_alternates_retained :
    eval_pair spShortest gC4 (1/5) ((0, 0), (0, 6)) = some cC4 ∧
    route_sim altC4 altC4 = 1 ∧
    ¬ route_sim altC4 altC4 ≤ 9/10 ∧
    ¬ route_sim altC4 altC4 ≤ 1/5 := by
  refine ⟨by with_unfolding_all decide, by with_unfolding_all decide, by with_unfolding_all decide, by with_unfolding_all decide⟩

/-- C1 (witness): the amended bounds evaluated on the concrete retained
candidate of `gC1`. -/
theorem c1_candidate_alt_count_bounds_witness :
    1 ≤ cC1.alt_routes_graph.length ∧
    cC1.alt_routes_graph.length ≤ ALT_MAX_ALTERNATIVES ∧
    refinement_alt_gate cC1 = true :=
  c1_candidate_alt_count_bounds spShortest gC1 (1/5) ((0, 0), (0, 5)) cC1
    (by with_unfolding_all decide)

/-- C4 (witness): the amended similarity bound evaluated on the concrete
retained candidate of `gC4` and its concrete alternate. -/
theorem c4_alt_similarity_vs_main_witness :
    route_sim altC4 cC4.main_route_graph ≤ 1/5 :=
  c4_alt_similarity_vs_main spShortest gC4 (1/5) ((0, 0), (0, 6)) cC4
    (by with_unfolding_all decide) altC4 (by decide)

/-- C5 (witness): the length bound evaluated on the concrete retained
candidate of `gC1`. -/
theorem c5_alt_length_ratio_witness :
    path_weight gC1 cC1.main_route_graph = some cC1.route_distance ∧
    ∀ a ∈ cC1.alt_routes_graph,
      ∃ La, path_weight gC1 a = some La ∧ La ≤ 13/10 * cC1.route_distance :=
  c5_alt_length_ratio spShortest gC1 (1/5) ((0, 0), (0, 5)) cC1 (by with_unfolding_all decide)

/-! ### The diversity selection filter (lines 660-688)

One selection run scans the hardness-sorted refined pool once per
separation threshold (`PASSES`, descending), accepting a candidate when it
is not "too close" to any already-selected candidate; the pass index at
which a candidate is accepted is recorded with it.  `SelCand` carries the
fields the filter reads (`snapped_pair`, `overlap`); the coordinate
comparison `math.hypot(...) < separation_dist` is expressed exactly over
the integer grid coordinates via squared distances. -/

/-- `PASSES` from the source. -/
def PASSES : List ℤ := [300, 250, 200, 150, 120, 100, 80, 60, 40, 20]

structure SelCand where
  snapped_pair : Node × Node
  overlap : ℚ
deriving DecidableEq

/-- Squared Euclidean distance of two grid coordinates. -/
def dSq (p q : Node) : ℤ := (p.1 - q.1)^2 + (p.2 - q.2)^2

/-- `math.hypot(p - q) < sep`, exactly: the threshold is positive and the
squared distance is below the squared threshold. -/
def distLt (p q : Node) (sep : ℤ) : Bool :=
  decide (0 < sep ∧ dSq p q < sep^2)

/-- The `too_close` test of the selection filter: both corresponding
endpoints within `sep`, or both crossed endpoints within `sep`. -/
def tooClose (cNew cSel : SelCand) (sep : ℤ) : Bool :=
  (distLt cNew.snapped_pair.1 cSel.snapped_pair.1 sep &&
   distLt cNew.snapped_pair.2 cSel.snapped_pair.2 sep) ||
  (distLt cNew.snapped_pair.1 cSel.snapped_pair.2 sep &&
   distLt cNew.snapped_pair.2 cSel.snapped_pair.1 sep)

/-- One candidate considered during one pass: skip when the target is
reached, when the candidate's stored pixel overlap exceeds
`MAX_OVERLAP_PERCENT`, when it is already selected, or when it is too
close to a selected candidate; otherwise append it tagged with the current
pass index. -/
def selAccept (maxOv : ℚ) (target : ℕ) (sep : ℤ) (pidx : ℕ)
    (acc : List (SelCand × ℕ)) (c : SelCand) : List (SelCand × ℕ) :=
  if target ≤ acc.length then acc
  else if maxOv < c.overlap then acc
  else if c ∈ acc.map Prod.fst then acc
  else if acc.any (fun s => tooClose c s.1 sep) then acc
  else acc ++ [(c, pidx)]

/-- One pass (`for c in pool_sorted`). -/
def selPass (maxOv : ℚ) (target : ℕ) (pool : List SelCand) (sep : ℤ)
    (pidx : ℕ) (acc : List (SelCand × ℕ)) : List (SelCand × ℕ) :=
  pool.foldl (selAccept maxOv target sep pidx) acc

/-- The pass loop (`for pass_idx, separation_dist in enumerate(PASSES, 1)`),
with the early exit once the target count is reached. -/
def selLoop (maxOv : ℚ) (target : ℕ) (pool : List SelCand) :
    ℕ → List ℤ → List (SelCand × ℕ) → List (SelCand × ℕ)
  | _, [], acc => acc
  | pidx, sep :: rest, acc =>
    if target ≤ acc.length then acc
    else selLoop maxOv target pool (pidx + 1) rest
      (selPass maxOv target pool sep pidx acc)

/-- One full selection run over the accumulated pool. -/
def selection (maxOv : ℚ) (target : ℕ) (passes : List ℤ)
    (pool : List SelCand) : List (SelCand × ℕ) :=
  selLoop maxOv target pool 1 passes []

/-- The separation property claimed for a selected pair: the later-accepted
candidate `y` does not have both corresponding endpoints within the
threshold of the pass recorded for `y` of the earlier candidate `x`. -/
def selOk (passes : List ℤ) (x y : SelCand × ℕ) : Prop :=
  ¬ (distLt y.1.snapped_pair.1 x.1.snapped_pair.1
        (passes.getD (y.2 - 1) 0) = true ∧
     distLt y.1.snapped_pair.2 x.1.snapped_pair.2
        (passes.getD (y.2 - 1) 0) = true)

theorem selAccept_pairwise {passes : List ℤ} {maxOv : ℚ} {target : ℕ}
    {sep : ℤ} {pidx : ℕ} {acc : List (SelCand × ℕ)} (c : SelCand)
    (hsep : passes.getD (pidx - 1) 0 = sep)
    (hacc : List.Pairwise (selOk passes) acc) :
    List.Pairwise (selOk passes) (selAccept maxOv target sep pidx acc c) := by
  unfold selAccept
  split
  · exact hacc
  · split
    · exact hacc
    · split
      · exact hacc
      · split
        · exact hacc
        · rename_i hany
          rw [List.pairwise_append]
          refine ⟨hacc, List.pairwise_singleton _ _, ?_⟩
          intro x hx y hy
          rcases List.mem_singleton.mp hy with rfl
          have hnc : tooClose c x.1 sep = false := by
            by_contra hc
            simp only [Bool.not_eq_false] at hc
            exact hany (List.any_eq_true.mpr ⟨x, hx, hc⟩)
          simp only [tooClose, Bool.or_eq_false_iff, Bool.and_eq_false_iff]
            at hnc
          simp only [selOk, hsep]
          intro hcl
          rcases hnc.1 with h1 | h1
          · rw [hcl.1] at h1; exact Bool.noConfusion h1
          · rw [hcl.2] at h1; exact Bool.noConfusion h1

theorem selPass_pairwise {passes : List ℤ} {maxOv : ℚ} {target : ℕ}
    {sep : ℤ} {pidx : ℕ} (pool : List SelCand)
    (hsep : passes.getD (pidx - 1) 0 = sep) :
    ∀ acc : List (SelCand × ℕ), List.Pairwise (selOk passes) acc →
      List.Pairwise (selOk passes) (selPass maxOv target pool sep pidx acc) := by
  induction pool with
  | nil => intro acc hacc; exact hacc
  | cons c pool ih =>
    intro acc hacc
    exact ih _ (selAccept_pairwise c hsep hacc)

theorem selLoop_pairwise {passes : List ℤ} {maxOv : ℚ} {target : ℕ}
    (pool : List SelCand) :
    ∀ (rem : List ℤ) (pidx : ℕ) (acc : List (SelCand × ℕ)),
      1 ≤ pidx →
      (∀ k, rem.get? k = passes.get? (pidx - 1 + k)) →
      List.Pairwise (selOk passes) acc →
      List.Pairwise (selOk passes) (selLoop maxOv target pool pidx rem acc) := by
  intro rem
  induction rem with
  | nil => intro pidx acc _ _ hacc; exact hacc
  | cons sep rest ih =>
    intro pidx acc hp hal hacc
    unfold selLoop
    split
    · exact hacc
    · have hsep : passes.getD (pidx - 1) 0 = sep := by
        have h0 := hal 0
        simp only [List.get?_cons_zero, Nat.add_zero] at h0
        rw [List.getD_eq_getElem?_getD, ← List.get?_eq_getElem?, ← h0]
        rfl
      refine ih (pidx + 1) _ (by omega) ?_
        (selPass_pairwise pool hsep acc hacc)
      intro k
      have hk := hal (k + 1)
      simp only [List.get?_cons_succ] at hk
      rw [hk]
      congr 1
      omega

/-- C7: at the end of a selection run (and hence, because the selected
list only ever grows during a run, at every point during it), for any two
selected candidates the later-accepted one does not have both
corresponding endpoints strictly within the separation threshold of the
pass in which it was accepted of the earlier-accepted one's endpoints. -/
theorem c7_selection_separation_invariant (maxOv : ℚ) (target : ℕ)
    (passes : List ℤ) (pool : List SelCand) :
    List.Pairwise (selOk passes) (selection maxOv target passes pool) := by
  apply selLoop_pairwise pool passes 1 [] (le_refl 1)
  · intro k
    simp
  · exact List.Pairwise.nil

/-! ### Point snapping (`snap_point`, lines 410-416)

The source takes the graph, the binary raster and a KD-tree, but its body
reads only the graph's node list: it computes the squared distance from
`pt` to every node and returns the node at the first position of the
sorted distance order.  The embedding selects a node of minimal squared
distance (first occurrence on ties; the tie case never arises below, since
only the queried node itself can be at distance zero). -/

def sqDistQ (n : Node) (pt : ℚ × ℚ) : ℚ :=
  ((n.1 : ℚ) - pt.1)^2 + ((n.2 : ℚ) - pt.2)^2

def snapGo (pt : ℚ × ℚ) : List Node → Option Node → Option Node
  | [], best => best
  | n :: rest, best =>
    match best with
    | none => snapGo pt rest (some n)
    | some b =>
      if sqDistQ n pt < sqDistQ b pt then snapGo pt rest (some n)
      else snapGo pt rest (some b)

def snap_point (pt : ℚ × ℚ) (nodes : List Node) : Option Node :=
  snapGo pt nodes none

theorem snapGo_acc_le (pt : ℚ × ℚ) :
    ∀ (l : List Node) (b : Node),
      ∃ r, snapGo pt l (some b) = some r ∧ sqDistQ r pt ≤ sqDistQ b pt := by
  intro l
  induction l with
  | nil => intro b; exact ⟨b, rfl, le_refl _⟩
  | cons m rest ih =>
    intro b
    simp only [snapGo]
    by_cases hm : sqDistQ m pt < sqDistQ b pt
    · rw [if_pos hm]
      obtain ⟨r, hr, hle⟩ := ih m
      exact ⟨r, hr, le_trans hle (le_of_lt hm)⟩
    · rw [if_neg hm]
      exact ih b

theorem snapGo_min (pt : ℚ × ℚ) :
    ∀ (l : List Node) (n : Node), n ∈ l →
      ∀ acc, ∃ r, snapGo pt l acc = some r ∧ sqDistQ r pt ≤ sqDistQ n pt := by
  intro l
  induction l with
  | nil => intro n hn; exact absurd hn (List.not_mem_nil n)
  | cons m rest ih =>
    intro n hn acc
    rcases List.mem_cons.mp hn with rfl | hn'
    · cases acc with
      | none => exact snapGo_acc_le pt rest n
      | some b =>
        simp only [snapGo]
        by_cases hm : sqDistQ n pt < sqDistQ b pt
        · rw [if_pos hm]
          exact snapGo_acc_le pt rest n
        · rw [if_neg hm]
          obtain ⟨r, hr, hle⟩ := snapGo_acc_le pt rest b
          exact ⟨r, hr, le_trans hle (le_of_not_lt hm)⟩
    · cases acc with
      | none => exact ih n hn' (some m)
      | some b =>
        simp only [snapGo]
        by_cases hm : sqDistQ m pt < sqDistQ b pt
        · rw [if_pos hm]; exact ih n hn' (some m)
        · rw [if_neg hm]; exact ih n hn' (some b)

/-- C8: snapping is idempotent — snapping a point that is already a graph
node returns that node itself, since only the node itself can be at
squared distance zero. -/
theorem c8_snap_idempotent (nodes : List Node) (n : Node)
    (h : n ∈ nodes) :
    snap_point ((n.1 : ℚ), (n.2 : ℚ)) nodes = some n := by
  obtain ⟨r, hr, hle⟩ := snapGo_min ((n.1 : ℚ), (n.2 : ℚ)) nodes n h none
  have h0 : sqDistQ n ((n.1 : ℚ), (n.2 : ℚ)) = 0 := by
    simp [sqDistQ]
  have hnn : 0 ≤ sqDistQ r ((n.1 : ℚ), (n.2 : ℚ)) :=
    add_nonneg (sq_nonneg _) (sq_nonneg _)
  have hz : sqDistQ r ((n.1 : ℚ), (n.2 : ℚ)) = 0 :=
    le_antisymm (h0 ▸ hle) hnn
  have hr1 : (r.1 : ℚ) = (n.1 : ℚ) ∧ (r.2 : ℚ) = (n.2 : ℚ) := by
    have := (add_eq_zero_iff_of_nonneg (sq_nonneg _) (sq_nonneg _)).mp hz
    constructor
    · exact sub_eq_zero.mp ((pow_eq_zero_iff two_ne_zero).mp this.1)
    · exact sub_eq_zero.mp ((pow_eq_zero_iff two_ne_zero).mp this.2)
  have hrn : r = n := by
    have h1 : r.1 = n.1 := by exact_mod_cast hr1.1
    have h2 : r.2 = n.2 := by exact_mod_cast hr1.2
    exact Prod.ext h1 h2
  rw [snap_point, hr, hrn]

/-- The node list for the C8 witness. -/
def nodesW : List Node := [(3, 4), (0, 0), (5, 5)]

/-- C8 (witness): snapping the concrete graph node `(0,0)` of a concrete
node list returns `(0,0)`. -/
theorem c8_snap_idempotent_witness :
    ((0, 0) : Node) ∈ nodesW ∧
    snap_point ((((0, 0) : Node).1 : ℚ), (((0, 0) : Node).2 : ℚ)) nodesW =
      some (0, 0) :=
  ⟨by decide, c8_snap_idempotent nodesW (0, 0) (by decide)⟩

/-! ### Pixel-path smoothing (`smooth_path`, lines 553-565)

A path shorter than the window is returned unchanged.  Otherwise the first
and last `w // 2` points are copied and every interior point is replaced
by the componentwise mean of the `w`-point window centred on it, rounded
with Python's `round` (round-half-to-even); the mean of integers is
modelled exactly as a rational. -/

/-- Python's `int(round(q))`: round half to even. -/
def roundHalfEven (q : ℚ) : ℤ :=
  if q - ⌊q⌋ < 1/2 then ⌊q⌋
  else if 1/2 < q - ⌊q⌋ then ⌊q⌋ + 1
  else if ⌊q⌋ % 2 = 0 then ⌊q⌋ else ⌊q⌋ + 1

/-- `np.mean(window, axis=0)`: the componentwise mean. -/
def meanPt (pts : List Node) : ℚ × ℚ :=
  ((((pts.map Prod.fst).sum : ℤ) : ℚ) / (pts.length : ℚ),
   (((pts.map Prod.snd).sum : ℤ) : ℚ) / (pts.length : ℚ))

def roundPt (p : ℚ × ℚ) : Node := (roundHalfEven p.1, roundHalfEven p.2)

/-- The slice `path_arr[i - w//2 : i + w//2 + 1]` (for `h = w//2`). -/
def windowAt (path : List Node) (i h : ℕ) : List Node :=
  (path.drop (i - h)).take (2 * h + 1)

def smooth_path (path : List Node) (w : ℕ) : List Node :=
  if path.length < w then path
  else
    (List.range (w / 2)).map (fun i => path.getD i (0, 0)) ++
    (List.range' (w / 2) (path.length - 2 * (w / 2))).map
      (fun i => roundPt (meanPt (windowAt path i (w / 2)))) ++
    (List.range' (path.length - w / 2) (w / 2)).map
      (fun i => path.getD i (0, 0))

theorem get?_eq_some_getD {α : Type} {l : List α} {i : ℕ}
    (h : i < l.length) (d : α) : l.get? i = some (l.getD i d) := by
  rw [List.getD_eq_getElem?_getD, ← List.get?_eq_getElem?]
  cases hg : l.get? i with
  | none => exact absurd (List.get?_eq_none.mp hg) (by omega)
  | some x => rfl

/-- The indexwise description of `smooth_path` on a path at least as long
as the window. -/
theorem smooth_path_get? (path : List Node) (w : ℕ)
    (hlen : w ≤ path.length) (i : ℕ) (hi : i < path.length) :
    (smooth_path path w).get? i =
      if i < w / 2 ∨ path.length - w / 2 ≤ i then path.get? i
      else some (roundPt (meanPt (windowAt path i (w / 2)))) := by
  have hno : ¬ path.length < w := by omega
  have hh : 2 * (w / 2) ≤ w := by omega
  have hfirst : ((List.range (w / 2)).map
      (fun i => path.getD i (0, 0))).length = w / 2 := by simp
  have hmid : ((List.range' (w / 2) (path.length - 2 * (w / 2))).map
      (fun i => roundPt (meanPt (windowAt path i (w / 2))))).length =
      path.length - 2 * (w / 2) := by simp
  rw [smooth_path, if_neg hno]
  by_cases h1 : i < w / 2
  · rw [if_pos (Or.inl h1), List.append_assoc]
    rw [List.get?_append (by omega : i < ((List.range (w / 2)).map
      (fun i => path.getD i (0, 0))).length)]
    rw [List.get?_map, List.get?_range h1]
    exact (get?_eq_some_getD (by omega) (0, 0)).symm
  · by_cases h2 : i < path.length - w / 2
    · rw [if_neg (by omega), List.append_assoc]
      rw [List.get?_append_right (by omega : ((List.range (w / 2)).map
        (fun i => path.getD i (0, 0))).length ≤ i)]
      rw [hfirst]
      have hb : i - w / 2 < ((List.range' (w / 2)
          (path.length - 2 * (w / 2))).map
          (fun i => roundPt (meanPt (windowAt path i (w / 2))))).length := by
        omega
      rw [List.get?_append hb]
      have hb2 : i - w / 2 < path.length - 2 * (w / 2) := by omega
      rw [List.get?_map, List.get?_range' _ _ hb2]
      have heq : w / 2 + 1 * (i - w / 2) = i := by omega
      rw [heq, Option.map_some']
    · rw [if_pos (Or.inr (by omega))]
      have hpre : ((List.range (w / 2)).map (fun i => path.getD i (0, 0)) ++
          (List.range' (w / 2) (path.length - 2 * (w / 2))).map
            (fun i => roundPt (meanPt (windowAt path i (w / 2))))).length =
          path.length - w / 2 := by
        rw [List.length_append, hfirst, hmid]
        omega
      rw [List.get?_append_right (by omega : ((List.range (w / 2)).map
          (fun i => path.getD i (0, 0)) ++
          (List.range' (w / 2) (path.length - 2 * (w / 2))).map
            (fun i => roundPt (meanPt (windowAt path i (w / 2))))).length ≤ i)]
      rw [hpre]
      have hb : i - (path.length - w / 2) < w / 2 := by omega
      rw [List.get?_map, List.get?_range' _ _ hb]
      have heq : path.length - w / 2 + 1 * (i - (path.length - w / 2)) =
          i := by omega
      rw [heq, Option.map_some']
      exact (get?_eq_some_getD hi (0, 0)).symm

theorem smooth_path_length (path : List Node) (w : ℕ)
    (hlen : w ≤ path.length) :
    (smooth_path path w).length = path.length := by
  have hno : ¬ path.length < w := by omega
  rw [smooth_path, if_neg hno]
  simp only [List.length_append, List.length_map, List.length_range,
    List.length_range']
  omega

theorem roundHalfEven_intCast (z : ℤ) : roundHalfEven (z : ℚ) = z := by
  rw [roundHalfEven]
  rw [Int.floor_intCast]
  rw [if_pos]
  rw [sub_self]
  norm_num

theorem roundPt_single (p : Node) : roundPt (meanPt [p]) = p := by
  have h1 : meanPt [p] = ((p.1 : ℚ), (p.2 : ℚ)) := by
    simp [meanPt]
  rw [h1, roundPt]
  simp only [roundHalfEven_intCast]

/-- The window of radius `0` around an in-range index is the singleton of
the point at that index. -/
theorem windowAt_zero (path : List Node) (i : ℕ) (hi : i < path.length) :
    windowAt path i 0 = [path.getD i (0, 0)] := by
  rw [windowAt]
  cases hd : path.drop (i - 0) with
  | nil =>
    exfalso
    have := congrArg List.length hd
    simp only [List.length_drop, List.length_nil] at this
    omega
  | cons x xs =>
    have hx : path.get? i = some x := by
      rw [List.get?_eq_getElem?, ← List.head?_drop]
      simp only [Nat.sub_zero] at hd
      rw [hd]
      rfl
    have hgd : path.getD i (0, 0) = x := by
      rw [List.getD_eq_getElem?_getD, ← List.get?_eq_getElem?, hx]
      rfl
    rw [show 2 * 0 + 1 = 1 from rfl, hgd]
    simp

/-- C9: for an odd window `w` and a path of at least `w` points, smoothing
preserves the length, leaves the `w/2 = (w-1)/2` points nearest each end
unmodified — in particular the first and the last point are preserved
exactly — and replaces each interior point by the rounded componentwise
mean of the `w`-point window centred on it. -/
theorem c9_smooth_path_endpoints (path : List Node) (w : ℕ)
    (hodd : w % 2 = 1) (hlen : w ≤ path.length) :
    (smooth_path path w).length = path.length ∧
    (∀ i, i < w / 2 → (smooth_path path w).get? i = path.get? i) ∧
    (∀ i, path.length - w / 2 ≤ i → i < path.length →
      (smooth_path path w).get? i = path.get? i) ∧
    (∀ i, w / 2 ≤ i → i < path.length - w / 2 →
      (smooth_path path w).get? i =
        some (roundPt (meanPt (windowAt path i (w / 2))))) ∧
    (smooth_path path w).get? 0 = path.get? 0 ∧
    (smooth_path path w).get? (path.length - 1) =
      path.get? (path.length - 1) := by
  have hw1 : 1 ≤ w := by omega
  have hn1 : 1 ≤ path.length := by omega
  refine ⟨smooth_path_length path w hlen, ?_, ?_, ?_, ?_, ?_⟩
  · intro i hi
    rw [smooth_path_get? path w hlen i (by omega), if_pos (Or.inl hi)]
  · intro i hi1 hi2
    rw [smooth_path_get? path w hlen i hi2, if_pos (Or.inr hi1)]
  · intro i hi1 hi2
    rw [smooth_path_get? path w hlen i (by omega), if_neg (by omega)]
  · by_cases h0 : 0 < w / 2
    · rw [smooth_path_get? path w hlen 0 (by omega), if_pos (Or.inl h0)]
    · -- `w = 1`: the first point is interior, but its window is itself.
      have hw : w = 1 := by omega
      subst hw
      rw [smooth_path_get? path 1 hlen 0 (by omega), if_neg (by omega)]
      rw [show (1 : ℕ) / 2 = 0 from rfl, windowAt_zero path 0 (by omega),
        roundPt_single]
      exact (get?_eq_some_getD (by omega) (0, 0)).symm
  · by_cases h0 : 0 < w / 2
    · rw [smooth_path_get? path w hlen (path.length - 1) (by omega),
        if_pos (Or.inr (by omega))]
    · have hw : w = 1 := by omega
      subst hw
      rw [smooth_path_get? path 1 hlen (path.length - 1) (by omega),
        if_neg (by omega)]
      rw [show (1 : ℕ) / 2 = 0 from rfl,
        windowAt_zero path (path.length - 1) (by omega), roundPt_single]
      exact (get?_eq_some_getD (by omega) (0, 0)).symm

/-- The concrete path for the C9 witness. -/
def pathW : List Node :=
  [(0, 0), (0, 1), (0, 3), (1, 6), (2, 6), (3, 7), (3, 8)]

/-- C9 (witness): the smoothing properties evaluated on a concrete 7-point
path with the default window `w = 5`. -/
theorem c9_smooth_path_endpoints_witness :
    5 % 2 = 1 ∧ 5 ≤ pathW.length ∧
    (smooth_path pathW 5).length = pathW.length ∧
    (smooth_path pathW 5).get? 1 = pathW.get? 1 ∧
    (smooth_path pathW 5).get? 0 = pathW.get? 0 ∧
    (smooth_path pathW 5).get? (pathW.length - 1) =
      pathW.get? (pathW.length - 1) :=
  ⟨by decide, by decide,
    (c9_smooth_path_endpoints pathW 5 (by decide) (by decide)).1,
    (c9_smooth_path_endpoints pathW 5 (by decide) (by decide)).2.1 1
      (by decide),
    (c9_smooth_path_endpoints pathW 5 (by decide) (by decide)).2.2.2.2.1,
    (c9_smooth_path_endpoints pathW 5 (by decide) (by decide)).2.2.2.2.2⟩

/-! ### Pixel overlap (`get_pixel_overlap`, lines 545-551) -/

/-- `get_pixel_overlap(path_a, path_b)`: intersection of the two point
sets over the smaller set's cardinality; `1.0` when the smaller set is
empty. -/
def get_pixel_overlap (path_a path_b : List Node) : ℚ :=
  let set_a := path_a.dedup
  let set_b := path_b.dedup
  let intersection := (set_a.filter (fun x => x ∈ set_b)).length
  let min_len := min set_a.length set_b.length
  if min_len = 0 then 1 else (intersection : ℚ) / (min_len : ℚ)

theorem inter_length_le_min (pa pb : List Node) :
    (pa.dedup.filter (fun x => x ∈ pb.dedup)).length ≤
      min pa.dedup.length pb.dedup.length := by
  refine le_min (List.length_filter_le _ _) ?_
  have hnd : (pa.dedup.filter (fun x => x ∈ pb.dedup)).Nodup :=
    (List.nodup_dedup pa).filter _
  have hsub : (pa.dedup.filter (fun x => x ∈ pb.dedup)).toFinset ⊆
      pb.dedup.toFinset := by
    intro x hx
    rw [List.mem_toFinset] at hx ⊢
    have := (List.mem_filter.mp hx).2
    simpa using this
  have h1 := List.toFinset_card_of_nodup hnd
  have h2 := List.toFinset_card_of_nodup (List.nodup_dedup pb)
  have := Finset.card_le_card hsub
  omega

/-- C10: the pixel-overlap computation is total, returns `1` whenever
either path's point set is empty (so the division is never performed on
zero), returns the intersection-over-smaller-set ratio otherwise, and its
result always lies in `[0, 1]`. -/
theorem c10_pixel_overlap_range (pa pb : List Node) :
    0 ≤ get_pixel_overlap pa pb ∧
    get_pixel_overlap pa pb ≤ 1 ∧
    (pa = [] ∨ pb = [] → get_pixel_overlap pa pb = 1) ∧
    (pa ≠ [] → pb ≠ [] → get_pixel_overlap pa pb =
      ((pa.dedup.filter (fun x => x ∈ pb.dedup)).length : ℚ) /
        (min pa.dedup.length pb.dedup.length : ℚ)) := by
  by_cases hmin : min pa.dedup.length pb.dedup.length = 0
  · have h1 : get_pixel_overlap pa pb = 1 := by
      rw [get_pixel_overlap, if_pos hmin]
    refine ⟨by rw [h1]; norm_num, by rw [h1], fun _ => h1, ?_⟩
    intro ha hb
    exfalso
    have ha' : pa.dedup ≠ [] := by
      simpa [List.dedup_eq_nil] using ha
    have hb' : pb.dedup ≠ [] := by
      simpa [List.dedup_eq_nil] using hb
    have := List.length_pos.mpr ha'
    have := List.length_pos.mpr hb'
    omega
  · have hform : get_pixel_overlap pa pb =
        ((pa.dedup.filter (fun x => x ∈ pb.dedup)).length : ℚ) /
          (min pa.dedup.length pb.dedup.length : ℚ) := by
      rw [get_pixel_overlap, if_neg hmin]
      push_cast
      rfl
    have hpos : (0 : ℚ) < (min pa.dedup.length pb.dedup.length : ℚ) := by
      have : 0 < min pa.dedup.length pb.dedup.length := by omega
      exact_mod_cast this
    refine ⟨?_, ?_, ?_, fun _ _ => hform⟩
    · rw [hform]
      exact div_nonneg (by positivity) (le_of_lt hpos)
    · rw [hform]
      rw [div_le_one hpos]
      exact_mod_cast inter_length_le_min pa pb
    · intro h
      exfalso
      rcases h with h | h
      · subst h
        apply hmin
        simp
      · subst h
        apply hmin
        simp

/-- C10 (witness): the range and totality facts evaluated on two concrete
two-point paths sharing one pixel. -/
theorem c10_pixel_overlap_range_witness :
    0 ≤ get_pixel_overlap [((0 : ℤ), (0 : ℤ)), (0, 1)]
        [((0 : ℤ), (1 : ℤ)), (0, 2)] ∧
    get_pixel_overlap [((0 : ℤ), (0 : ℤ)), (0, 1)]
        [((0 : ℤ), (1 : ℤ)), (0, 2)] ≤ 1 ∧
    ([((0 : ℤ), (0 : ℤ)), (0, 1)] = ([] : List Node) ∨
      [((0 : ℤ), (1 : ℤ)), (0, 2)] = ([] : List Node) →
      get_pixel_overlap [((0 : ℤ), (0 : ℤ)), (0, 1)]
        [((0 : ℤ), (1 : ℤ)), (0, 2)] = 1) ∧
    ([((0 : ℤ), (0 : ℤ)), (0, 1)] ≠ ([] : List Node) →
      [((0 : ℤ), (1 : ℤ)), (0, 2)] ≠ ([] : List Node) →
      get_pixel_overlap [((0 : ℤ), (0 : ℤ)), (0, 1)]
          [((0 : ℤ), (1 : ℤ)), (0, 2)] =
        (([((0 : ℤ), (0 : ℤ)), (0, 1)].dedup.filter
            (fun x => x ∈ [((0 : ℤ), (1 : ℤ)), (0, 2)].dedup)).length : ℚ) /
          (min [((0 : ℤ), (0 : ℤ)), (0, 1)].dedup.length
            [((0 : ℤ), (1 : ℤ)), (0, 2)].dedup.length : ℚ)) :=
  c10_pixel_overlap_range [((0 : ℤ), (0 : ℤ)), (0, 1)]
    [((0 : ℤ), (1 : ℤ)), (0, 2)]

/-! ### Skeleton-graph contraction (`simplify_graph`, lines 361-394)

The full skeleton graph is represented by its adjacency data, the level at
which the contraction operates (`G.degree`, `G.neighbors`); the weight
lookup `G[u][v]["weight"]` is a function parameter (its values, `1` and
`√2` in the pipeline, play no role in the claims about the chain walk).
The chain walk returns, together with the chain, whether it exited through
the `if not nxts: break` branch (ran out of unvisited neighbours). -/

/-- Adjacency data of a graph: each node with its neighbour list. -/
abbrev Adj : Type := List (Node × List Node)

/-- `G.neighbors(n)`. -/
def nbrsOf (adj : Adj) (n : Node) : List Node :=
  ((adj.find? (fun p => p.1 = n)).map (fun p => p.2)).getD []

/-- `G.degree(n)` with `networkx` semantics: a self-loop counts twice. -/
def degreeNx (adj : Adj) (n : Node) : ℕ :=
  (nbrsOf adj n).length + (if n ∈ nbrsOf adj n then 1 else 0)

/-- A junction of the contraction: a node of degree `≠ 2`. -/
def isJunction (adj : Adj) (n : Node) : Bool :=
  decide (degreeNx adj n ≠ 2)

/-- The chain walk of `simplify_graph` (lines 375-382): starting on the
edge `prev → cur` with `chain` already holding both, follow degree-2
nodes, never stepping back to `prev`; stop at a junction (flag `false`),
or when no next neighbour exists — the `break` — (flag `true`). -/
def chainWalk (adj : Adj) : ℕ → Node → Node → List Node →
    List Node × Bool
  | 0, _, _, chain => (chain, false)
  | fuel + 1, prev, cur, chain =>
    if isJunction adj cur then (chain, false)
    else
      match (nbrsOf adj cur).erase prev with
      | [] => (chain, true)
      | nxt :: _ => chainWalk adj fuel cur nxt (chain ++ [nxt])

/-- `sum(G[chain[i]][chain[i+1]]["weight"] ...)` (line 384). -/
def chainDist (wtf : Node → Node → ℚ) : List Node → ℚ
  | [] => 0
  | [_] => 0
  | a :: b :: rest => wtf a b + chainDist wtf (b :: rest)

/-- Lines 387-390: add the contracted edge, keeping the minimum weight if
an edge between the two endpoints already exists. -/
def addMinEdge (es : List (Node × Node × ℚ)) (u v : Node) (d : ℚ) :
    List (Node × Node × ℚ) :=
  match es.find? (matchesE u v) with
  | none => es ++ [(u, v, d)]
  | some e =>
    if d < e.2.2 then
      es.map (fun x => if matchesE u v x then (x.1, x.2.1, d) else x)
    else es

/-- The consecutive pairs of a chain, marked visited at line 392. -/
def consecPairs (l : List Node) : List (Node × Node) := l.zip l.tail

/-- The junction set (line 362). -/
def junctionsOf (adj : Adj) : List Node :=
  (adj.map Prod.fst).filter (fun n => isJunction adj n)

/-- One `(junction, neighbour)` iteration of the contraction loop: skip
visited chains; otherwise walk the chain and add a contracted edge from
`chain[0]` to `chain[-1]` — note this happens whether or not the walk
broke early. -/
def simplifyStep (adj : Adj) (wtf : Node → Node → ℚ) (fuel : ℕ)
    (st : List (Node × Node) × List (Node × Node × ℚ)) (p : Node × Node) :
    List (Node × Node) × List (Node × Node × ℚ) :=
  if p ∈ st.1 ∨ (p.2, p.1) ∈ st.1 then st
  else
    let chain := (chainWalk adj fuel p.1 p.2 [p.1, p.2]).1
    (st.1 ++ consecPairs chain,
     addMinEdge st.2 (chain.getD 0 p.1) (chain.getLastD p.1)
       (chainDist wtf chain))

/-- `simplify_graph(G)`: the contracted edge list. -/
def simplify_graph (adj : Adj) (wtf : Node → Node → ℚ) (fuel : ℕ) :
    List (Node × Node × ℚ) :=
  (((junctionsOf adj).flatMap
      (fun n => (nbrsOf adj n).map (fun m => (n, m)))).foldl
    (simplifyStep adj wtf fuel) ([], [])).2

/-- Symmetry of adjacency data, as guaranteed for every `networkx` graph:
every listed neighbour relation holds in both directions. -/
def SymmetricAdj (adj : Adj) : Prop :=
  ∀ p ∈ adj, ∀ y ∈ p.2, p.1 ∈ nbrsOf adj y

instance decSymmetricAdj (adj : Adj) : Decidable (SymmetricAdj adj) :=
  inferInstanceAs (Decidable (∀ p ∈ adj, ∀ y ∈ p.2, p.1 ∈ nbrsOf adj y))

theorem nbrs_symm {adj : Adj} (h : SymmetricAdj adj) {x y : Node}
    (hy : y ∈ nbrsOf adj x) : x ∈ nbrsOf adj y := by
  unfold nbrsOf at hy
  cases hf : adj.find? (fun p => p.1 = x) with
  | none => rw [hf] at hy; simp at hy
  | some p =>
    rw [hf] at hy
    simp only [Option.map_some', Option.getD_some] at hy
    have hp : p ∈ adj := List.mem_of_find?_eq_some hf
    have hpx : p.1 = x := by simpa using List.find?_some hf
    exact hpx ▸ h p hp y hy

/-- On symmetric adjacency data, a chain walk that enters a degree-2 node
along an edge always has a next neighbour: the break branch is
unreachable. -/
theorem chainWalk_no_break {adj : Adj} (hsym : SymmetricAdj adj) :
    ∀ (fuel : ℕ) (prev cur : Node) (chain : List Node),
      prev ∈ nbrsOf adj cur → prev ≠ cur →
      (chainWalk adj fuel prev cur chain).2 = false := by
  intro fuel
  induction fuel with
  | zero => intro prev cur chain _ _; rfl
  | succ f ih =>
    intro prev cur chain hmem hne
    simp only [chainWalk]
    by_cases hj : isJunction adj cur = true
    · rw [if_pos hj]
    · rw [if_neg hj]
      have hdeg : degreeNx adj cur = 2 := by
        simpa [isJunction] using hj
      have hself : cur ∉ nbrsOf adj cur := by
        intro hcc
        have h1 : (nbrsOf adj cur).length + 1 = 2 := by
          simpa [degreeNx, hcc] using hdeg
        have hlen1 : (nbrsOf adj cur).length = 1 := by omega
        obtain ⟨x, hx⟩ := List.length_eq_one.mp hlen1
        rw [hx] at hmem hcc
        rcases List.mem_singleton.mp hmem with rfl
        rcases List.mem_singleton.mp hcc with h
        exact hne ((List.mem_singleton.mp hmem).trans h.symm) |>.elim
      have hlen2 : (nbrsOf adj cur).length = 2 := by
        simpa [degreeNx, hself] using hdeg
      have herase_len : ((nbrsOf adj cur).erase prev).length = 1 := by
        rw [List.length_erase_of_mem hmem, hlen2]
      cases he : (nbrsOf adj cur).erase prev with
      | nil => rw [he] at herase_len; simp at herase_len
      | cons nxt rest =>
        have hnxt_mem : nxt ∈ nbrsOf adj cur :=
          List.mem_of_mem_erase (he ▸ List.mem_cons_self nxt rest)
        have hnxt_ne : nxt ≠ cur := fun hcc => hself (hcc ▸ hnxt_mem)
        exact ih cur nxt (chain ++ [nxt]) (nbrs_symm hsym hnxt_mem)
          (fun h => hnxt_ne h.symm)

/-- The adjacency data for the C6 counterexample: `(0,2)` carries only a
self-loop and its backward edge to `(0,1)` is missing, so the walk from
the junction `(0,0)` runs out of unvisited neighbours at `(0,2)`. -/
def adjC6 : Adj :=
  [((0, 0), [(0, 1)]),
   ((0, 1), [(0, 0), (0, 2)]),
   ((0, 2), [(0, 2)])]

/-- C6 (counterexample): on `adjC6`, the chain walk started from the
junction `(0,0)` exits through the `break` branch (runs out of unvisited
neighbours), yet `simplify_graph` still adds the contracted edge
`((0,0), (0,2))` with the accumulated chain weight — the broken chain is
*not* abandoned. -/
theorem c6_broken_chain_adds_edge :
    (chainWalk adjC6 10 (0, 0) (0, 1) [(0, 0), (0, 1)]).2 = true ∧
    simplify_graph adjC6 (fun _ _ => 1) 10 = [((0, 0), (0, 2), 3)] := by
  refine ⟨by decide, by with_unfolding_all decide⟩

/-- C6 (amended): for symmetric adjacency data — which every graph built
by the skeleton stage satisfies — no chain walk started by
`simplify_graph` from a junction along an incident edge ever runs out of
unvisited neighbours, for any fuel: the broken-chain branch is
unreachable; and, as the counterexample shows, were it reached the chain
would still produce a contracted edge rather than being abandoned. -/
theorem c6_chain_walk_never_breaks (adj : Adj) (hsym : SymmetricAdj adj)
    (n neigh : Node) (hj : isJunction adj n = true)
    (hmem : neigh ∈ nbrsOf adj n) (fuel : ℕ) :
    (chainWalk adj fuel n neigh [n, neigh]).2 = false := by
  by_cases hne : neigh = n
  · subst hne
    cases fuel with
    | zero => rfl
    | succ f => simp only [chainWalk, if_pos hj]
  · exact chainWalk_no_break hsym fuel n neigh [n, neigh]
      (nbrs_symm hsym hmem) (fun h => hne h.symm)

/-- Symmetric path-graph adjacency for the C6 witness. -/
def adjP : Adj :=
  [((0, 0), [(0, 1)]),
   ((0, 1), [(0, 0), (0, 2)]),
   ((0, 2), [(0, 1)])]

/-- C6 (witness): on a concrete symmetric three-node path, the walk from
the junction `(0,0)` terminates at the far junction without breaking. -/
theorem c6_chain_walk_never_breaks_witness :
    SymmetricAdj adjP ∧ isJunction adjP (0, 0) = true ∧
    ((0, 1) : Node) ∈ nbrsOf adjP (0, 0) ∧
    (chainWalk adjP 10 (0, 0) (0, 1) [(0, 0), (0, 1)]).2 = false :=
  ⟨by decide, by decide, by decide,
    c6_chain_walk_never_breaks adjP (by decide) (0, 0) (0, 1) (by decide)
      (by decide) 10⟩

/-! ### The empty-raster guard (lines 346, 402-406)

Line 346 thresholds the grayscale raster at 128; the skeleton of the
resulting mask (an external `skimage` call) is a subset of the mask's
foreground pixels.  Lines 402-406: when the simplified graph has no nodes
the source prints a warning, inserts the dummy node `(0,0)` and
continues — it does not fail. -/

/-- The navigable pixels of the raster: entries strictly above 128, as
`(row, col)` coordinates. -/
def binary_pixels (bw : List (List ℕ)) : List Node :=
  bw.enum.flatMap (fun rc =>
    rc.2.enum.filterMap (fun cv =>
      if 128 < cv.2 then some ((rc.1 : ℤ), (cv.1 : ℤ)) else none))

/-- The 8-neighbourhood offsets of line 351. -/
def neighbors8 : List (ℤ × ℤ) :=
  [(-1, 0), (1, 0), (0, -1), (0, 1), (-1, -1), (-1, 1), (1, -1), (1, 1)]

/-- The full skeleton graph's adjacency (lines 350-359): every skeleton
coordinate, with its 8-neighbours that are also skeleton coordinates. -/
def skelAdj (coords : List Node) : Adj :=
  coords.map (fun p => (p, neighbors8.filterMap (fun d =>
    if ((p.1 + d.1, p.2 + d.2) : Node) ∈ coords
    then some (p.1 + d.1, p.2 + d.2) else none)))

/-- The node list of the simplified graph: the explicitly added junctions
plus the endpoints of the contracted edges (`networkx` adds edge endpoints
as nodes). -/
def gsNodes (adj : Adj) (wtf : Node → Node → ℚ) (fuel : ℕ) : List Node :=
  (junctionsOf adj ++
    (simplify_graph adj wtf fuel).flatMap (fun e => [e.1, e.2.1])).dedup

/-- The guard of lines 402-406: an empty node list is replaced by the
dummy node `(0,0)` and processing continues. -/
def ensure_nodes (ns : List Node) : List Node :=
  if ns.isEmpty then [(0, 0)] else ns

/-- The claim's version of the guard, following the spec's words
(`NoNavigableTerrain` as a fatal error aborting the job); stated only for
comparison — no such failure path exists in the source. -/
def graph_build_spec (ns : List Node) : Except String (List Node) :=
  if ns.isEmpty then Except.error "NoNavigableTerrain" else Except.ok ns

/-- C3 (counterexample): the concrete raster `[[0, 5], [100, 128]]` has no
navigable pixels (threshold is strictly greater than 128), its skeleton is
therefore empty and graph construction yields no nodes — but the code
continues with the dummy node list `[(0,0)]`, while the claim demands the
fatal `NoNavigableTerrain` outcome. -/
theorem c3_empty_raster_continues :
    binary_pixels [[0, 5], [100, 128]] = [] ∧
    gsNodes (skelAdj []) (fun _ _ => 1) 10 = [] ∧
    ensure_nodes (gsNodes (skelAdj []) (fun _ _ => 1) 10) = [(0, 0)] ∧
    graph_build_spec (gsNodes (skelAdj []) (fun _ _ => 1) 10) =
      Except.error "NoNavigableTerrain" := by
  refine ⟨by decide, rfl, rfl, rfl⟩

/-- C3 (amended): for every raster with no navigable pixel and every
skeleton contained in the raster's foreground (skeletonization never
creates foreground), the simplified graph is empty and the code replaces
the empty node list by the dummy node `(0,0)` and continues; no error is
raised and no abort happens. -/
theorem c3_empty_raster_dummy_node (bw : List (List ℕ))
    (coords : List Node) (wtf : Node → Node → ℚ) (fuel : ℕ)
    (hnav : ∀ row ∈ bw, ∀ v ∈ row, v ≤ 128)
    (hskel : ∀ p ∈ coords, p ∈ binary_pixels bw) :
    binary_pixels bw = [] ∧
    gsNodes (skelAdj coords) wtf fuel = [] ∧
    ensure_nodes (gsNodes (skelAdj coords) wtf fuel) = [(0, 0)] := by
  have hbp : binary_pixels bw = [] := by
    rw [List.eq_nil_iff_forall_not_mem]
    intro p hp
    rw [binary_pixels, List.mem_flatMap] at hp
    obtain ⟨rc, hrc, hp2⟩ := hp
    rw [List.mem_filterMap] at hp2
    obtain ⟨cv, hcv, hp3⟩ := hp2
    by_cases hv : 128 < cv.2
    · have hrow : rc.2 ∈ bw := by
        have := List.mem_enum_iff_getElem?.mp hrc
        exact List.getElem?_mem this
      have hval : cv.2 ∈ rc.2 := by
        have := List.mem_enum_iff_getElem?.mp hcv
        exact List.getElem?_mem this
      exact absurd hv (by have := hnav rc.2 hrow cv.2 hval; omega)
    · rw [if_neg hv] at hp3
      exact Option.noConfusion hp3
  have hcoords : coords = [] := by
    cases coords with
    | nil => rfl
    | cons p ps =>
      have := hskel p (List.mem_cons_self p ps)
      rw [hbp] at this
      exact absurd this (List.not_mem_nil p)
  subst hcoords
  exact ⟨hbp, rfl, rfl⟩

/-- C3 (witness): the amended behaviour evaluated at the concrete
navigability-free raster. -/
theorem c3_empty_raster_dummy_node_witness :
    (∀ row ∈ [[0, 5], [100, 128]], ∀ v ∈ row, v ≤ 128) ∧
    ensure_nodes (gsNodes (skelAdj []) (fun _ _ => (1 : ℚ)) 10) =
      [(0, 0)] :=
  ⟨by decide,
    (c3_empty_raster_dummy_node [[0, 5], [100, 128]] [] (fun _ _ => 1) 10
      (by decide) (by decide)).2.2⟩

end RouteGen
